import Mathlib

/-!
Verification of the `ovsx-fork-tools` setup procedure.

The repository's core is `internal/setup/app.go` (`Run`): it checks for the
GitHub CLI on the search path, checks that the working directory is a git
repository, parses two optional string flags, renders four embedded workflow
templates by literal placeholder substitution, writes them under
`.github/workflows/` and stages each written file with `git add`.

Strings are embedded as `List Char`.  External effects (path lookup, stat,
directory creation, file writes, `git add`) are modelled by an environment
of success indicators, and the Go map iteration of the install loop by an
explicit order parameter constrained to a permutation of the map's entries.
-/

set_option autoImplicit false

namespace OvsxSetup

/-- Characters of the publisher placeholder token recognised by the setup
tool, the literal string used in `app.go`. -/
def pubPlaceholder : List Char := "$\x7b\x7b vars.PUBLISHER_NAME \x7d\x7d".data

/-- Characters of the extension-path placeholder token recognised by the
setup tool, the literal string used in `app.go`. -/
def extPlaceholder : List Char := "$\x7b\x7b vars.EXTENSION_PATH \x7d\x7d".data

/-- Model of Go `strings.ReplaceAll(s, ph, rep)` for a non-empty pattern
`ph`: scan left to right, replacing each leftmost non-overlapping occurrence
of `ph` by `rep`.  The program only ever calls it with the two fixed 26-byte
placeholder tokens, so the empty-pattern behaviour of Go (interleaving) is
irrelevant; for `ph = []` this model returns `s` unchanged. -/
def replaceAll (s ph rep : List Char) : List Char :=
  match s with
  | [] => []
  | c :: cs =>
    if ph ≠ [] ∧ ph.isPrefixOf (c :: cs) then
      rep ++ replaceAll (List.drop (ph.length - 1) cs) ph rep
    else
      c :: replaceAll cs ph rep
termination_by s.length
decreasing_by
  · simp only [List.length_drop, List.length_cons]
    omega
  · simp only [List.length_cons]
    omega

/-- Spec-side decomposition: split `s` at every leftmost non-overlapping
occurrence of the pattern `ph`, returning the in-between pieces. -/
def splitOn (ph s : List Char) : List (List Char) :=
  match s with
  | [] => [[]]
  | c :: cs =>
    if ph ≠ [] ∧ ph.isPrefixOf (c :: cs) then
      [] :: splitOn ph (List.drop (ph.length - 1) cs)
    else
      match splitOn ph cs with
      | [] => [[c]]
      | h :: t => (c :: h) :: t
termination_by s.length
decreasing_by
  · simp only [List.length_drop, List.length_cons]
    omega
  · simp only [List.length_cons]
    omega

/-- Join a list of pieces, inserting `sep` between consecutive pieces. -/
def joinWith (sep : List Char) : List (List Char) → List Char
  | [] => []
  | [x] => x
  | x :: y :: t => x ++ sep ++ joinWith sep (y :: t)

/-- Modelled from the spec: "replace every literal occurrence of the
placeholder with the value" is read as splitting the text at every
occurrence of the placeholder and joining the pieces with the value. -/
def specSubstitute (ph rep s : List Char) : List Char :=
  joinWith rep (splitOn ph s)

theorem replaceAll_nil (ph rep : List Char) : replaceAll [] ph rep = [] := by
  unfold replaceAll
  rfl

theorem replaceAll_cons (c : Char) (cs ph rep : List Char) :
    replaceAll (c :: cs) ph rep =
      if ph ≠ [] ∧ ph.isPrefixOf (c :: cs) then
        rep ++ replaceAll (List.drop (ph.length - 1) cs) ph rep
      else
        c :: replaceAll cs ph rep := by
  conv_lhs => unfold replaceAll

theorem splitOn_nil (ph : List Char) : splitOn ph [] = [[]] := by
  unfold splitOn
  rfl

theorem splitOn_cons (ph : List Char) (c : Char) (cs : List Char) :
    splitOn ph (c :: cs) =
      if ph ≠ [] ∧ ph.isPrefixOf (c :: cs) then
        [] :: splitOn ph (List.drop (ph.length - 1) cs)
      else
        match splitOn ph cs with
        | [] => [[c]]
        | h :: t => (c :: h) :: t := by
  conv_lhs => unfold splitOn

theorem splitOn_ne_nil (ph s : List Char) : splitOn ph s ≠ [] := by
  match s with
  | [] => simp [splitOn_nil]
  | c :: cs =>
    rw [splitOn_cons]
    by_cases h : ph ≠ [] ∧ ph.isPrefixOf (c :: cs)
    · simp [h]
    · simp only [if_neg h]
      cases splitOn ph cs with
      | nil => simp
      | cons h t => simp

theorem replaceAll_eq_specSubstitute_aux (ph rep : List Char) :
    ∀ n : Nat, ∀ s : List Char, s.length ≤ n →
      replaceAll s ph rep = specSubstitute ph rep s := by
  intro n
  induction n with
  | zero =>
    intro s hs
    have hs0 : s = [] := List.length_eq_zero.mp (Nat.le_zero.mp hs)
    subst hs0
    simp [replaceAll_nil, specSubstitute, splitOn_nil, joinWith]
  | succ n ih =>
    intro s hs
    match s with
    | [] => simp [replaceAll_nil, specSubstitute, splitOn_nil, joinWith]
    | c :: cs =>
      have hcs : cs.length ≤ n := by
        simp only [List.length_cons] at hs
        omega
      by_cases h : ph ≠ [] ∧ ph.isPrefixOf (c :: cs)
      · rw [replaceAll_cons, if_pos h, specSubstitute, splitOn_cons, if_pos h]
        have hdrop : (List.drop (ph.length - 1) cs).length ≤ n := by
          simp only [List.length_drop]
          omega
        have ihd := ih (List.drop (ph.length - 1) cs) hdrop
        rw [specSubstitute] at ihd
        rw [ihd]
        cases hsp : splitOn ph (List.drop (ph.length - 1) cs) with
        | nil => exact absurd hsp (splitOn_ne_nil ph _)
        | cons hd tl => simp [joinWith]
      · rw [replaceAll_cons, if_neg h, specSubstitute, splitOn_cons, if_neg h]
        have ihc := ih cs hcs
        rw [specSubstitute] at ihc
        rw [ihc]
        cases hsp : splitOn ph cs with
        | nil => exact absurd hsp (splitOn_ne_nil ph _)
        | cons hd tl =>
          cases tl with
          | nil => simp [joinWith]
          | cons hd2 tl2 => simp [joinWith]

theorem replaceAll_eq_specSubstitute (ph rep s : List Char) :
    replaceAll s ph rep = specSubstitute ph rep s :=
  replaceAll_eq_specSubstitute_aux ph rep s.length s (Nat.le_refl _)

/-- Rendering of one template, as the install loop of `app.go` performs it:
if `publisherName` is non-empty replace all occurrences of the publisher
placeholder, then, if `extensionPath` is non-empty, replace all occurrences
of the extension-path placeholder in the result. -/
def renderFile (t pub ext : List Char) : List Char :=
  let s1 := if pub ≠ [] then replaceAll t pubPlaceholder pub else t
  if ext ≠ [] then replaceAll s1 extPlaceholder ext else s1

/-- Modelled from the spec: the rendered file substitutes every occurrence
of the publisher placeholder when `publisherName` is non-empty and leaves
the text unchanged otherwise, and likewise for the extension-path
placeholder afterwards. -/
def specRenderFile (t pub ext : List Char) : List Char :=
  let s1 := if pub ≠ [] then specSubstitute pubPlaceholder pub t else t
  if ext ≠ [] then specSubstitute extPlaceholder ext s1 else s1

/-- C1: for every template and parameter pair, the bytes the install loop
writes are exactly the spec-side substitution semantics: every literal
occurrence of a placeholder whose parameter is non-empty is replaced by the
parameter value, and a placeholder whose parameter is empty is left
untouched by its substitution stage. -/
theorem render_matches_spec_substitution (t pub ext : List Char) :
    renderFile t pub ext = specRenderFile t pub ext := by
  unfold renderFile specRenderFile
  by_cases hp : pub ≠ []
  · by_cases he : ext ≠ [] <;>
      simp [hp, he, replaceAll_eq_specSubstitute]
  · by_cases he : ext ≠ [] <;>
      simp [hp, he, replaceAll_eq_specSubstitute]

/-- Alias flags registered for the publisher parameter in `app.go`
(`flag.StringVar` on `publisherFlag` for `p`, `publisher`,
`ovsx-publisher`). -/
def pubAliases : List String := ["p", "publisher", "ovsx-publisher"]

/-- Alias flags registered for the extension-path parameter in `app.go`
(`flag.StringVar` on `extensionPathFlag` for `e`, `extension-path`,
`path`, `dir`). -/
def extAliases : List String := ["e", "extension-path", "path", "dir"]

/-- Model of `flag.Parse` for the registered string flags: the command line
is a list of (flag name, value) pairs, processed left to right; every
occurrence of an alias overwrites the shared target variable, so the last
occurrence wins.  An unrecognised flag makes the flag package terminate the
process (modelled as `none`). -/
def parseFlags : List (String × List Char) → List Char × List Char →
    Option (List Char × List Char)
  | [], acc => some acc
  | (name, value) :: rest, (pub, ext) =>
    if name ∈ pubAliases then parseFlags rest (value, ext)
    else if name ∈ extAliases then parseFlags rest (pub, value)
    else none

/-- The four embedded workflow templates.  `embed.go` declares `Sync`,
`Release` and `CheckVersion` as compiled-in assets; the `AutoTag` blob used
by `app.go` and all four byte contents are compiled-in assets whose bytes
are not part of the sources, so the contents are opaque parameters here
(the spec treats them as opaque blobs as well). -/
structure Workflows where
  Sync : List Char
  Release : List Char
  AutoTag : List Char
  CheckVersion : List Char

/-- The entries of the `filesToInstall` map literal of `app.go`, in source
order.  In Go this is a `map[string][]byte`, so only the key/value
association is meaningful; iteration order is unspecified and is modelled
by the explicit order parameter of `Run`. -/
def filesToInstall (w : Workflows) : List (String × List Char) :=
  [("sync.yml", w.Sync), ("release.yml", w.Release),
   ("auto-tag.yml", w.AutoTag), ("check-version.yml", w.CheckVersion)]

/-- Outcomes of the external effects the procedure performs: whether the
GitHub CLI is locatable on the search path, whether `.git` exists in the
working directory, and whether directory creation, each file write and each
`git add` succeed. -/
structure Env where
  ghOnPath : Bool
  gitDirExists : Bool
  mkdirOk : Bool
  writeOk : String → Bool
  gitAddOk : String → Bool

/-- Observable repository state: files on disk (most recent write first,
so a later write of the same path shadows an earlier one) and the paths
staged in the version-control index, in staging order. -/
structure RepoState where
  files : List (String × List Char)
  staged : List String
deriving DecidableEq

/-- The failure kinds of `Run`, one per early-return of `app.go`.
`flagTerminated` models the flag package exiting the process on an
unrecognised flag. -/
inductive RunError where
  | ghNotInstalled
  | notAGitRepo
  | flagTerminated
  | mkdirFailed
  | writeFileFailed (path : String)
  | gitAddFailed (path : String)
deriving DecidableEq

/-- The fixed output directory `filepath.Join(".github", "workflows")`. -/
def workflowDir : String := ".github/workflows"

/-- The destination `filepath.Join(workflowDir, filename)` of one file. -/
def destPath (filename : String) : String := workflowDir ++ "/" ++ filename

/-- Read a file from the repository state: the most recent write wins. -/
def lookupFile : List (String × List Char) → String → Option (List Char)
  | [], _ => none
  | (q, c) :: rest, p => if q = p then some c else lookupFile rest p

/-- The install loop of `app.go`: for each map entry, render the template,
write it to its destination (failure returns `writeFileFailed` at once),
then `git add` it (failure returns `gitAddFailed` at once); on success
continue with the remaining entries. -/
def installLoop (env : Env) (pub ext : List Char) :
    List (String × List Char) → RepoState → RepoState × Option RunError
  | [], st => (st, none)
  | (filename, content) :: rest, st =>
    let fileContent := renderFile content pub ext
    let dest := destPath filename
    if env.writeOk dest then
      let st1 : RepoState := ⟨(dest, fileContent) :: st.files, st.staged⟩
      if env.gitAddOk dest then
        installLoop env pub ext rest ⟨st1.files, st1.staged ++ [dest]⟩
      else
        (st1, some (RunError.gitAddFailed dest))
    else
      (st, some (RunError.writeFileFailed dest))

/-- The setup procedure `Run` of `app.go`: check the GitHub CLI is on the
search path, check `.git` exists, parse the flags, create the workflow
directory, then run the install loop.  `order` is the sequence in which
the Go `range` loop visits the `filesToInstall` map; theorems constrain it
to a permutation of the map's entries. -/
def Run (env : Env) (args : List (String × List Char))
    (order : List (String × List Char)) (st0 : RepoState) :
    RepoState × Option RunError :=
  if env.ghOnPath then
    if env.gitDirExists then
      match parseFlags args ([], []) with
      | none => (st0, some RunError.flagTerminated)
      | some (pub, ext) =>
        if env.mkdirOk then installLoop env pub ext order st0
        else (st0, some RunError.mkdirFailed)
    else (st0, some RunError.notAGitRepo)
  else (st0, some RunError.ghNotInstalled)

/-- Concrete environment in which every external operation succeeds. -/
def allOkEnv : Env := ⟨true, true, true, fun _ => true, fun _ => true⟩

/-- Concrete template contents used to instantiate theorems on runs. -/
def sampleWorkflows : Workflows := ⟨"A".data, "B".data, "C".data, "D".data⟩

theorem installLoop_success (env : Env) (pub ext : List Char)
    (order : List (String × List Char)) (st : RepoState)
    (hw : ∀ e ∈ order, env.writeOk (destPath e.1) = true)
    (ha : ∀ e ∈ order, env.gitAddOk (destPath e.1) = true) :
    installLoop env pub ext order st =
      (⟨(order.map (fun e => (destPath e.1, renderFile e.2 pub ext))).reverse
          ++ st.files,
        st.staged ++ order.map (fun e => destPath e.1)⟩, none) := by
  induction order generalizing st with
  | nil => simp [installLoop]
  | cons e rest ih =>
    obtain ⟨filename, content⟩ := e
    have hw0 : env.writeOk (destPath filename) = true :=
      hw _ (List.mem_cons_self _ _)
    have ha0 : env.gitAddOk (destPath filename) = true :=
      ha _ (List.mem_cons_self _ _)
    have hwr : ∀ e ∈ rest, env.writeOk (destPath e.1) = true :=
      fun e he => hw e (List.mem_cons_of_mem _ he)
    have har : ∀ e ∈ rest, env.gitAddOk (destPath e.1) = true :=
      fun e he => ha e (List.mem_cons_of_mem _ he)
    simp only [installLoop, hw0, ha0, if_true]
    rw [ih _ hwr har]
    simp [List.append_assoc]

/-- C3: when the GitHub CLI is not locatable on the search path, the
procedure fails with the tool-not-found error and leaves the repository
state untouched: no file is written and nothing is staged. -/
theorem run_fails_without_gh_cli (env : Env)
    (args order : List (String × List Char)) (st0 : RepoState)
    (h : env.ghOnPath = false) :
    Run env args order st0 = (st0, some RunError.ghNotInstalled) := by
  simp [Run, h]

theorem run_fails_without_gh_cli_witness :
    (⟨false, true, true, fun _ => true, fun _ => true⟩ : Env).ghOnPath = false ∧
    Run ⟨false, true, true, fun _ => true, fun _ => true⟩ [] [] ⟨[], []⟩ =
      (⟨[], []⟩, some RunError.ghNotInstalled) :=
  ⟨rfl, run_fails_without_gh_cli _ [] [] ⟨[], []⟩ rfl⟩

/-- C5: when the working directory holds no `.git` metadata directory, the
procedure fails with the not-a-repository error and leaves the repository
state untouched: no file is written and nothing is staged. -/
theorem run_fails_outside_git_repo (env : Env)
    (args order : List (String × List Char)) (st0 : RepoState)
    (hgh : env.ghOnPath = true) (h : env.gitDirExists = false) :
    Run env args order st0 = (st0, some RunError.notAGitRepo) := by
  simp [Run, hgh, h]

theorem run_fails_outside_git_repo_witness :
    (⟨true, false, true, fun _ => true, fun _ => true⟩ : Env).ghOnPath = true ∧
    (⟨true, false, true, fun _ => true, fun _ => true⟩ : Env).gitDirExists = false ∧
    Run ⟨true, false, true, fun _ => true, fun _ => true⟩ [] [] ⟨[], []⟩ =
      (⟨[], []⟩, some RunError.notAGitRepo) :=
  ⟨rfl, rfl, run_fails_outside_git_repo _ [] [] ⟨[], []⟩ rfl rfl⟩

/-- C2: for every parameter pair the flags parse to (both-empty included),
a run against an empty repository state in which the CLI checks pass and
every directory creation, file write and `git add` succeed returns success,
writes exactly the four workflow files under `.github/workflows/`, and
stages exactly those four paths. -/
theorem run_success_installs_four_files (env : Env) (w : Workflows)
    (args : List (String × List Char)) (pub ext : List Char)
    (order : List (String × List Char))
    (hgh : env.ghOnPath = true) (hgit : env.gitDirExists = true)
    (hmk : env.mkdirOk = true)
    (hparse : parseFlags args ([], []) = some (pub, ext))
    (horder : order.Perm (filesToInstall w))
    (hw : ∀ e ∈ order, env.writeOk (destPath e.1) = true)
    (ha : ∀ e ∈ order, env.gitAddOk (destPath e.1) = true) :
    (Run env args order ⟨[], []⟩).2 = none ∧
    ((Run env args order ⟨[], []⟩).1.files.map Prod.fst).Perm
      [destPath "sync.yml", destPath "release.yml", destPath "auto-tag.yml",
       destPath "check-version.yml"] ∧
    (Run env args order ⟨[], []⟩).1.staged.Perm
      [destPath "sync.yml", destPath "release.yml", destPath "auto-tag.yml",
       destPath "check-version.yml"] := by
  have hrun : Run env args order ⟨[], []⟩ =
      (⟨(order.map (fun e => (destPath e.1, renderFile e.2 pub ext))).reverse,
        order.map (fun e => destPath e.1)⟩, none) := by
    simp [Run, hgh, hgit, hmk, hparse,
      installLoop_success env pub ext order ⟨[], []⟩ hw ha]
  have hperm : (order.map (fun e => destPath e.1)).Perm
      [destPath "sync.yml", destPath "release.yml", destPath "auto-tag.yml",
       destPath "check-version.yml"] := by
    have := horder.map (fun e => destPath e.1)
    simpa [filesToInstall] using this
  refine ⟨by rw [hrun], ?_, ?_⟩
  · rw [hrun]
    have hmapfst : ((order.map
        (fun e => (destPath e.1, renderFile e.2 pub ext))).reverse.map Prod.fst)
        = (order.map (fun e => destPath e.1)).reverse := by
      simp [List.map_reverse, Function.comp]
    simp only [hmapfst]
    exact ((order.map (fun e => destPath e.1)).reverse_perm).trans hperm
  · rw [hrun]
    exact hperm

theorem run_success_installs_four_files_witness :
    allOkEnv.ghOnPath = true ∧ allOkEnv.gitDirExists = true ∧
    allOkEnv.mkdirOk = true ∧
    parseFlags [] ([], []) = some ([], []) ∧
    (filesToInstall sampleWorkflows).Perm (filesToInstall sampleWorkflows) ∧
    (Run allOkEnv [] (filesToInstall sampleWorkflows) ⟨[], []⟩).2 = none ∧
    ((Run allOkEnv [] (filesToInstall sampleWorkflows) ⟨[], []⟩).1.files.map
        Prod.fst).Perm
      [destPath "sync.yml", destPath "release.yml", destPath "auto-tag.yml",
       destPath "check-version.yml"] ∧
    (Run allOkEnv [] (filesToInstall sampleWorkflows) ⟨[], []⟩).1.staged.Perm
      [destPath "sync.yml", destPath "release.yml", destPath "auto-tag.yml",
       destPath "check-version.yml"] := by
  refine ⟨rfl, rfl, rfl, rfl, List.Perm.refl _, ?_⟩
  exact run_success_installs_four_files allOkEnv sampleWorkflows [] [] []
    (filesToInstall sampleWorkflows) rfl rfl rfl rfl (List.Perm.refl _)
    (fun e he => rfl) (fun e he => rfl)

theorem installLoop_gitadd_fail (env : Env) (pub ext : List Char)
    (pre : List (String × List Char)) (filename : String)
    (content : List Char) (post : List (String × List Char)) (st : RepoState)
    (hw : ∀ e ∈ pre, env.writeOk (destPath e.1) = true)
    (ha : ∀ e ∈ pre, env.gitAddOk (destPath e.1) = true)
    (hwf : env.writeOk (destPath filename) = true)
    (haf : env.gitAddOk (destPath filename) = false) :
    installLoop env pub ext (pre ++ (filename, content) :: post) st =
      (⟨(destPath filename, renderFile content pub ext) ::
          ((pre.map (fun e => (destPath e.1, renderFile e.2 pub ext))).reverse
            ++ st.files),
        st.staged ++ pre.map (fun e => destPath e.1)⟩,
       some (RunError.gitAddFailed (destPath filename))) := by
  induction pre generalizing st with
  | nil => simp [installLoop, hwf, haf]
  | cons e rest ih =>
    obtain ⟨name, c⟩ := e
    have hw0 : env.writeOk (destPath name) = true :=
      hw _ (List.mem_cons_self _ _)
    have ha0 : env.gitAddOk (destPath name) = true :=
      ha _ (List.mem_cons_self _ _)
    have hwr : ∀ e ∈ rest, env.writeOk (destPath e.1) = true :=
      fun e he => hw e (List.mem_cons_of_mem _ he)
    have har : ∀ e ∈ rest, env.gitAddOk (destPath e.1) = true :=
      fun e he => ha e (List.mem_cons_of_mem _ he)
    simp only [List.cons_append, installLoop, hw0, ha0, if_true]
    simp only [List.append_eq]
    rw [ih _ hwr har]
    simp [List.append_assoc]

/-- C6: when a `git add` fails for one entry of the install loop while all
earlier writes and stagings succeeded and the failing entry's own write
succeeded, the procedure stops with the stage-failed error for that path;
the failing file and every earlier file are still on disk, exactly the
earlier files are staged, and no entry after the failing one is processed
(no rollback of prior writes or stagings). -/
theorem git_add_failure_aborts_keeps_files (env : Env) (w : Workflows)
    (args : List (String × List Char)) (pub ext : List Char)
    (pre : List (String × List Char)) (filename : String)
    (content : List Char) (post : List (String × List Char))
    (hgh : env.ghOnPath = true) (hgit : env.gitDirExists = true)
    (hmk : env.mkdirOk = true)
    (hparse : parseFlags args ([], []) = some (pub, ext))
    (horder : (pre ++ (filename, content) :: post).Perm (filesToInstall w))
    (hw : ∀ e ∈ pre, env.writeOk (destPath e.1) = true)
    (ha : ∀ e ∈ pre, env.gitAddOk (destPath e.1) = true)
    (hwf : env.writeOk (destPath filename) = true)
    (haf : env.gitAddOk (destPath filename) = false) :
    Run env args (pre ++ (filename, content) :: post) ⟨[], []⟩ =
      (⟨(destPath filename, renderFile content pub ext) ::
          (pre.map (fun e => (destPath e.1, renderFile e.2 pub ext))).reverse,
        pre.map (fun e => destPath e.1)⟩,
       some (RunError.gitAddFailed (destPath filename))) := by
  simp [Run, hgh, hgit, hmk, hparse,
    installLoop_gitadd_fail env pub ext pre filename content post ⟨[], []⟩
      hw ha hwf haf]

theorem git_add_failure_aborts_keeps_files_witness :
    (⟨true, true, true, fun _ => true, fun _ => false⟩ : Env).ghOnPath = true ∧
    parseFlags [] ([], []) = some ([], []) ∧
    ([] ++ ("sync.yml", sampleWorkflows.Sync) ::
        [("release.yml", sampleWorkflows.Release),
         ("auto-tag.yml", sampleWorkflows.AutoTag),
         ("check-version.yml", sampleWorkflows.CheckVersion)]).Perm
      (filesToInstall sampleWorkflows) ∧
    Run ⟨true, true, true, fun _ => true, fun _ => false⟩ []
        ([] ++ ("sync.yml", sampleWorkflows.Sync) ::
          [("release.yml", sampleWorkflows.Release),
           ("auto-tag.yml", sampleWorkflows.AutoTag),
           ("check-version.yml", sampleWorkflows.CheckVersion)]) ⟨[], []⟩ =
      (⟨(destPath "sync.yml",
          renderFile sampleWorkflows.Sync [] []) :: ([].map
            (fun (e : String × List Char) =>
              (destPath e.1, renderFile e.2 [] []))).reverse,
        [].map (fun (e : String × List Char) => destPath e.1)⟩,
       some (RunError.gitAddFailed (destPath "sync.yml"))) := by
  refine ⟨rfl, rfl, List.Perm.refl _, ?_⟩
  exact git_add_failure_aborts_keeps_files
    ⟨true, true, true, fun _ => true, fun _ => false⟩ sampleWorkflows [] [] []
    [] "sync.yml" sampleWorkflows.Sync
    [("release.yml", sampleWorkflows.Release),
     ("auto-tag.yml", sampleWorkflows.AutoTag),
     ("check-version.yml", sampleWorkflows.CheckVersion)]
    rfl rfl rfl rfl (List.Perm.refl _)
    (fun e he => absurd he (List.not_mem_nil e))
    (fun e he => absurd he (List.not_mem_nil e)) rfl rfl

theorem renderFile_empty (t : List Char) : renderFile t [] [] = t := by
  simp [renderFile]

theorem destPath_inj {a b : String} (h : destPath a = destPath b) : a = b := by
  have hd : (workflowDir ++ "/").data ++ a.data = (workflowDir ++ "/").data ++ b.data := by
    have hdata := congrArg String.data h
    simpa [destPath, String.data_append, List.append_assoc] using hdata
  have hab : a.data = b.data := by
    exact List.append_cancel_left hd
  cases a
  cases b
  simp only [String.data] at hab
  rw [hab]

theorem lookupFile_append_of_mem (l1 l2 : List (String × List Char))
    (p : String) (c : List Char) (h : lookupFile l1 p = some c) :
    lookupFile (l1 ++ l2) p = some c := by
  induction l1 with
  | nil => simp [lookupFile] at h
  | cons e rest ih =>
    obtain ⟨q, d⟩ := e
    by_cases hq : q = p
    · simp [lookupFile, hq] at h
      simp [lookupFile, hq, h]
    · simp [lookupFile, hq] at h
      simp [lookupFile, hq, ih h]

theorem lookupFile_append_of_not_mem (l1 l2 : List (String × List Char))
    (p : String) (h : ∀ e ∈ l1, e.1 ≠ p) :
    lookupFile (l1 ++ l2) p = lookupFile l2 p := by
  induction l1 with
  | nil => simp
  | cons e rest ih =>
    obtain ⟨q, d⟩ := e
    have hq : q ≠ p := h _ (List.mem_cons_self _ _)
    have hrest : ∀ e ∈ rest, e.1 ≠ p := fun e he => h e (List.mem_cons_of_mem _ he)
    simp [lookupFile, hq, ih hrest]

theorem lookupFile_reverse_writes (pub ext : List Char) :
    ∀ (order : List (String × List Char)) (n : String) (c : List Char),
      (order.map Prod.fst).Nodup → (n, c) ∈ order →
      lookupFile
        ((order.map (fun e => (destPath e.1, renderFile e.2 pub ext))).reverse)
        (destPath n) = some (renderFile c pub ext) := by
  intro order
  induction order with
  | nil => intro n c hnd hmem; simp at hmem
  | cons e rest ih =>
    intro n c hnd hmem
    obtain ⟨m, d⟩ := e
    have hnd1 : m ∉ rest.map Prod.fst := by
      simp only [List.map_cons, List.nodup_cons] at hnd
      exact hnd.1
    have hnd2 : (rest.map Prod.fst).Nodup := by
      simp only [List.map_cons, List.nodup_cons] at hnd
      exact hnd.2
    rcases List.mem_cons.mp hmem with heq | hmemr
    · have hm : m = n := by
        have := congrArg Prod.fst heq
        simp at this
        exact this.symm
      have hc : d = c := by
        have := congrArg Prod.snd heq
        simp at this
        exact this.symm
      subst hm
      subst hc
      have hkeys : ∀ e2 ∈ (rest.map
          (fun e => (destPath e.1, renderFile e.2 pub ext))).reverse,
          e2.1 ≠ destPath m := by
        intro e2 he2
        rw [List.mem_reverse] at he2
        rcases List.mem_map.mp he2 with ⟨e3, he3, rfl⟩
        intro hcontra
        have : e3.1 = m := destPath_inj hcontra
        exact hnd1 (this ▸ List.mem_map_of_mem Prod.fst he3)
      simp only [List.map_cons, List.reverse_cons]
      rw [lookupFile_append_of_not_mem _ _ _ hkeys]
      simp [lookupFile]
    · have hlook := ih n c hnd2 hmemr
      simp only [List.map_cons, List.reverse_cons]
      exact lookupFile_append_of_mem _ _ _ _ hlook

/-- C10: when both parameters are empty (no flags given), the rendering
step is the identity: a fully successful run writes, for every entry of the
template set, exactly the embedded template bytes to that entry's
destination path. -/
theorem empty_params_render_identity (env : Env) (w : Workflows)
    (order : List (String × List Char))
    (hgh : env.ghOnPath = true) (hgit : env.gitDirExists = true)
    (hmk : env.mkdirOk = true)
    (horder : order.Perm (filesToInstall w))
    (hw : ∀ e ∈ order, env.writeOk (destPath e.1) = true)
    (ha : ∀ e ∈ order, env.gitAddOk (destPath e.1) = true) :
    (Run env [] order ⟨[], []⟩).2 = none ∧
    ∀ n c, (n, c) ∈ filesToInstall w →
      lookupFile (Run env [] order ⟨[], []⟩).1.files (destPath n) = some c := by
  have hrun : Run env [] order ⟨[], []⟩ =
      (⟨(order.map (fun e => (destPath e.1, renderFile e.2 [] []))).reverse,
        order.map (fun e => destPath e.1)⟩, none) := by
    have := installLoop_success env [] [] order ⟨[], []⟩ hw ha
    simp [Run, hgh, hgit, hmk, parseFlags, this]
  refine ⟨by rw [hrun], ?_⟩
  intro n c hmem
  have hnodup : (order.map Prod.fst).Nodup := by
    have hp : (order.map Prod.fst).Perm ((filesToInstall w).map Prod.fst) :=
      horder.map Prod.fst
    have : ((filesToInstall w).map Prod.fst).Nodup := by
      simp [filesToInstall]
    exact hp.nodup_iff.mpr this
  have hmemo : (n, c) ∈ order := (horder.mem_iff).mpr hmem
  have := lookupFile_reverse_writes [] [] order n c hnodup hmemo
  rw [hrun]
  simpa [renderFile_empty] using this

theorem empty_params_render_identity_witness :
    allOkEnv.ghOnPath = true ∧ allOkEnv.gitDirExists = true ∧
    allOkEnv.mkdirOk = true ∧
    (filesToInstall sampleWorkflows).Perm (filesToInstall sampleWorkflows) ∧
    ((Run allOkEnv [] (filesToInstall sampleWorkflows) ⟨[], []⟩).2 = none ∧
     ∀ n c, (n, c) ∈ filesToInstall sampleWorkflows →
       lookupFile (Run allOkEnv [] (filesToInstall sampleWorkflows) ⟨[], []⟩).1.files
         (destPath n) = some c) :=
  ⟨rfl, rfl, rfl, List.Perm.refl _,
    empty_params_render_identity allOkEnv sampleWorkflows
      (filesToInstall sampleWorkflows) rfl rfl rfl (List.Perm.refl _)
      (fun e he => rfl) (fun e he => rfl)⟩

/-- C4: idempotence of contents — a successful run from an empty repository
state followed by a second successful run with the same parameters against
the state the first left behind ends, for each of the four output files,
with the same bytes after the second run as after the first. -/
theorem run_idempotent_contents (env : Env) (w : Workflows)
    (args : List (String × List Char)) (pub ext : List Char)
    (order1 order2 : List (String × List Char))
    (hgh : env.ghOnPath = true) (hgit : env.gitDirExists = true)
    (hmk : env.mkdirOk = true)
    (hparse : parseFlags args ([], []) = some (pub, ext))
    (h1 : order1.Perm (filesToInstall w)) (h2 : order2.Perm (filesToInstall w))
    (hw : ∀ p, env.writeOk p = true) (ha : ∀ p, env.gitAddOk p = true) :
    (Run env args order1 ⟨[], []⟩).2 = none ∧
    (Run env args order2 (Run env args order1 ⟨[], []⟩).1).2 = none ∧
    ∀ n c, (n, c) ∈ filesToInstall w →
      lookupFile (Run env args order2 (Run env args order1 ⟨[], []⟩).1).1.files
          (destPath n)
        = lookupFile (Run env args order1 ⟨[], []⟩).1.files (destPath n) := by
  have hrun1 : Run env args order1 ⟨[], []⟩ =
      (⟨(order1.map (fun e => (destPath e.1, renderFile e.2 pub ext))).reverse,
        order1.map (fun e => destPath e.1)⟩, none) := by
    have := installLoop_success env pub ext order1 ⟨[], []⟩
      (fun e he => hw _) (fun e he => ha _)
    simp [Run, hgh, hgit, hmk, hparse, this]
  have hrun2 : Run env args order2 (Run env args order1 ⟨[], []⟩).1 =
      (⟨(order2.map (fun e => (destPath e.1, renderFile e.2 pub ext))).reverse
          ++ (order1.map (fun e => (destPath e.1, renderFile e.2 pub ext))).reverse,
        order1.map (fun e => destPath e.1)
          ++ order2.map (fun e => destPath e.1)⟩, none) := by
    rw [hrun1]
    have hs := installLoop_success env pub ext order2
      ⟨(order1.map (fun e => (destPath e.1, renderFile e.2 pub ext))).reverse,
        order1.map (fun e => destPath e.1)⟩ (fun e _ => hw _) (fun e _ => ha _)
    simp [Run, hgh, hgit, hmk, hparse, hs]
  have hnodup1 : (order1.map Prod.fst).Nodup := by
    have hp := h1.map Prod.fst
    have hf : ((filesToInstall w).map Prod.fst).Nodup := by
      simp [filesToInstall]
    exact hp.nodup_iff.mpr hf
  have hnodup2 : (order2.map Prod.fst).Nodup := by
    have hp := h2.map Prod.fst
    have hf : ((filesToInstall w).map Prod.fst).Nodup := by
      simp [filesToInstall]
    exact hp.nodup_iff.mpr hf
  refine ⟨by rw [hrun1], by rw [hrun2], ?_⟩
  intro n c hmem
  have hmem1 : (n, c) ∈ order1 := (h1.mem_iff).mpr hmem
  have hmem2 : (n, c) ∈ order2 := (h2.mem_iff).mpr hmem
  have hl1 := lookupFile_reverse_writes pub ext order1 n c hnodup1 hmem1
  have hl2 := lookupFile_reverse_writes pub ext order2 n c hnodup2 hmem2
  have hfin := lookupFile_append_of_mem
    ((order2.map (fun e => (destPath e.1, renderFile e.2 pub ext))).reverse)
    ((order1.map (fun e => (destPath e.1, renderFile e.2 pub ext))).reverse)
    (destPath n) (renderFile c pub ext) hl2
  rw [hrun2, hrun1]
  simp [hfin, hl1]

theorem run_idempotent_contents_witness :
    allOkEnv.ghOnPath = true ∧
    parseFlags [] ([], []) = some ([], []) ∧
    ((Run allOkEnv [] (filesToInstall sampleWorkflows) ⟨[], []⟩).2 = none ∧
     (Run allOkEnv [] (filesToInstall sampleWorkflows)
        (Run allOkEnv [] (filesToInstall sampleWorkflows) ⟨[], []⟩).1).2 = none ∧
     ∀ n c, (n, c) ∈ filesToInstall sampleWorkflows →
       lookupFile (Run allOkEnv [] (filesToInstall sampleWorkflows)
           (Run allOkEnv [] (filesToInstall sampleWorkflows) ⟨[], []⟩).1).1.files
           (destPath n)
         = lookupFile (Run allOkEnv [] (filesToInstall sampleWorkflows) ⟨[], []⟩).1.files
             (destPath n)) :=
  ⟨rfl, rfl,
    run_idempotent_contents allOkEnv sampleWorkflows [] [] []
      (filesToInstall sampleWorkflows) (filesToInstall sampleWorkflows)
      rfl rfl rfl rfl (List.Perm.refl _) (List.Perm.refl _)
      (fun p => rfl) (fun p => rfl)⟩

/-- Modelled from the spec: "last-specified wins" — after flag parsing a
parameter holds the value of the last argument whose flag name is one of
the parameter's aliases, or the given default when no such argument is. -/
def lastValue (aliases : List String) (dflt : List Char) :
    List (String × List Char) → List Char
  | [] => dflt
  | (name, value) :: rest =>
    if name ∈ aliases then lastValue aliases value rest
    else lastValue aliases dflt rest

/-- C7 counterexample: the extension-path parameter is accepted under four
distinct alias flags, not three — each of `e`, `extension-path`, `path` and
`dir` sets it. -/
theorem extension_alias_count_counterexample :
    parseFlags [("e", "a".data)] ([], []) = some ([], "a".data) ∧
    parseFlags [("extension-path", "b".data)] ([], []) = some ([], "b".data) ∧
    parseFlags [("path", "c".data)] ([], []) = some ([], "c".data) ∧
    parseFlags [("dir", "d".data)] ([], []) = some ([], "d".data) ∧
    extAliases.Nodup ∧ extAliases.length ≠ 3 := by
  decide

/-- C7 amended: the publisher parameter is accepted under exactly three
alias flags and the extension-path parameter under exactly four; the
aliases are pairwise distinct, all aliases of one parameter collapse to the
same value, and when an option is specified multiple times the
last-specified value wins. -/
theorem flag_aliases_last_wins (args : List (String × List Char))
    (p0 e0 : List Char)
    (h : ∀ a ∈ args, a.1 ∈ pubAliases ∨ a.1 ∈ extAliases) :
    pubAliases.length = 3 ∧ extAliases.length = 4 ∧
    (pubAliases ++ extAliases).Nodup ∧
    parseFlags args (p0, e0) =
      some (lastValue pubAliases p0 args, lastValue extAliases e0 args) := by
  refine ⟨by decide, by decide, by decide, ?_⟩
  induction args generalizing p0 e0 with
  | nil => simp [parseFlags, lastValue]
  | cons a rest ih =>
    obtain ⟨name, value⟩ := a
    have hhead := h _ (List.mem_cons_self _ _)
    have hrest : ∀ a ∈ rest, a.1 ∈ pubAliases ∨ a.1 ∈ extAliases :=
      fun a ha => h a (List.mem_cons_of_mem _ ha)
    by_cases hp : name ∈ pubAliases
    · have hne : name ∉ extAliases := by
        simp only [pubAliases, List.mem_cons, List.not_mem_nil, or_false] at hp
        rcases hp with rfl | rfl | rfl <;> decide
      simp only [parseFlags, lastValue, hp, hne, if_true, if_false,
        if_neg hne, if_pos hp]
      exact ih value e0 hrest
    · have hee : name ∈ extAliases := by
        rcases hhead with hh | hh
        · exact absurd hh hp
        · exact hh
      simp only [parseFlags, lastValue, if_neg hp, if_pos hee]
      exact ih p0 value hrest

theorem flag_aliases_last_wins_witness :
    (∀ a ∈ ([("p", "a".data), ("publisher", "b".data),
             ("e", "x".data), ("dir", "y".data)] : List (String × List Char)),
        a.1 ∈ pubAliases ∨ a.1 ∈ extAliases) ∧
    (pubAliases.length = 3 ∧ extAliases.length = 4 ∧
     (pubAliases ++ extAliases).Nodup ∧
     parseFlags [("p", "a".data), ("publisher", "b".data),
                 ("e", "x".data), ("dir", "y".data)] ([], []) =
       some (lastValue pubAliases []
               [("p", "a".data), ("publisher", "b".data),
                ("e", "x".data), ("dir", "y".data)],
             lastValue extAliases []
               [("p", "a".data), ("publisher", "b".data),
                ("e", "x".data), ("dir", "y".data)])) :=
  ⟨by decide,
    flag_aliases_last_wins
      [("p", "a".data), ("publisher", "b".data),
       ("e", "x".data), ("dir", "y".data)] [] [] (by decide)⟩

/-- C8 counterexample: the filename-to-template mapping is a generic Go map
literal, so the install loop's iteration order is not fixed — here two
fully successful runs over the same four map entries, one visiting them in
source order and one in reverse, stage (and hence write and log) the four
files in different orders. -/
theorem write_order_not_deterministic :
    ((filesToInstall sampleWorkflows).reverse).Perm
      (filesToInstall sampleWorkflows) ∧
    (Run allOkEnv [] (filesToInstall sampleWorkflows) ⟨[], []⟩).2 = none ∧
    (Run allOkEnv [] ((filesToInstall sampleWorkflows).reverse) ⟨[], []⟩).2
      = none ∧
    (Run allOkEnv [] (filesToInstall sampleWorkflows) ⟨[], []⟩).1.staged ≠
      (Run allOkEnv [] ((filesToInstall sampleWorkflows).reverse) ⟨[], []⟩).1.staged := by
  decide

/-- C8 amended: the mapping is a generic associative container (a Go map
literal) and the write order of two successful runs may differ; what is
deterministic, for a fixed parameter pair, is the collection of written
files with their bytes and the collection of staged paths, equal as
multisets across any two successful runs. -/
theorem write_multiset_deterministic (env : Env) (w : Workflows)
    (args : List (String × List Char)) (pub ext : List Char)
    (order1 order2 : List (String × List Char))
    (hgh : env.ghOnPath = true) (hgit : env.gitDirExists = true)
    (hmk : env.mkdirOk = true)
    (hparse : parseFlags args ([], []) = some (pub, ext))
    (h1 : order1.Perm (filesToInstall w)) (h2 : order2.Perm (filesToInstall w))
    (hw : ∀ p, env.writeOk p = true) (ha : ∀ p, env.gitAddOk p = true) :
    (Run env args order1 ⟨[], []⟩).2 = none ∧
    (Run env args order2 ⟨[], []⟩).2 = none ∧
    (Run env args order1 ⟨[], []⟩).1.files.Perm
      (Run env args order2 ⟨[], []⟩).1.files ∧
    (Run env args order1 ⟨[], []⟩).1.staged.Perm
      (Run env args order2 ⟨[], []⟩).1.staged := by
  have hrun1 : Run env args order1 ⟨[], []⟩ =
      (⟨(order1.map (fun e => (destPath e.1, renderFile e.2 pub ext))).reverse,
        order1.map (fun e => destPath e.1)⟩, none) := by
    have := installLoop_success env pub ext order1 ⟨[], []⟩
      (fun e _ => hw _) (fun e _ => ha _)
    simp [Run, hgh, hgit, hmk, hparse, this]
  have hrun2 : Run env args order2 ⟨[], []⟩ =
      (⟨(order2.map (fun e => (destPath e.1, renderFile e.2 pub ext))).reverse,
        order2.map (fun e => destPath e.1)⟩, none) := by
    have := installLoop_success env pub ext order2 ⟨[], []⟩
      (fun e _ => hw _) (fun e _ => ha _)
    simp [Run, hgh, hgit, hmk, hparse, this]
  have h12 : order1.Perm order2 := h1.trans h2.symm
  refine ⟨by rw [hrun1], by rw [hrun2], ?_, ?_⟩
  · rw [hrun1, hrun2]
    exact ((List.reverse_perm _).trans
      (h12.map (fun e => (destPath e.1, renderFile e.2 pub ext)))).trans
      (List.reverse_perm _).symm
  · rw [hrun1, hrun2]
    exact h12.map (fun e => destPath e.1)

theorem write_multiset_deterministic_witness :
    allOkEnv.ghOnPath = true ∧
    ((filesToInstall sampleWorkflows).reverse).Perm
      (filesToInstall sampleWorkflows) ∧
    ((Run allOkEnv [] (filesToInstall sampleWorkflows) ⟨[], []⟩).2 = none ∧
     (Run allOkEnv [] ((filesToInstall sampleWorkflows).reverse) ⟨[], []⟩).2
       = none ∧
     (Run allOkEnv [] (filesToInstall sampleWorkflows) ⟨[], []⟩).1.files.Perm
       (Run allOkEnv [] ((filesToInstall sampleWorkflows).reverse) ⟨[], []⟩).1.files ∧
     (Run allOkEnv [] (filesToInstall sampleWorkflows) ⟨[], []⟩).1.staged.Perm
       (Run allOkEnv [] ((filesToInstall sampleWorkflows).reverse) ⟨[], []⟩).1.staged) :=
  ⟨rfl, by decide,
    write_multiset_deterministic allOkEnv sampleWorkflows [] [] []
      (filesToInstall sampleWorkflows) ((filesToInstall sampleWorkflows).reverse)
      rfl rfl rfl rfl (List.Perm.refl _) (by decide)
      (fun p => rfl) (fun p => rfl)⟩

theorem replaceAll_self (ph rep : List Char) (h : ph ≠ []) :
    replaceAll ph ph rep = rep := by
  cases ph with
  | nil => exact absurd rfl h
  | cons c cs =>
    rw [replaceAll_cons]
    have hpre : (c :: cs).isPrefixOf (c :: cs) = true := by
      simp
    rw [if_pos ⟨h, hpre⟩]
    have hdrop : List.drop ((c :: cs).length - 1) cs = [] := by
      simp [List.drop_eq_nil_iff]
    rw [hdrop, replaceAll_nil, List.append_nil]

/-- C9: the install loop applies the publisher substitution strictly before
the extension-path substitution: when the publisher value itself contains
the extension-path placeholder and the extension path is non-empty, the
placeholder occurrences the publisher substitution introduces are
themselves substituted away in the written bytes — rendering a template
that is exactly the publisher placeholder yields the extension-path
substitution applied to the publisher value, and with the publisher value
exactly the extension-path placeholder the written bytes are exactly the
extension path. -/
theorem publisher_substitution_before_extension (pre post ext : List Char)
    (h : ext ≠ []) :
    renderFile pubPlaceholder (pre ++ extPlaceholder ++ post) ext
      = specSubstitute extPlaceholder ext (pre ++ extPlaceholder ++ post) ∧
    renderFile pubPlaceholder extPlaceholder ext = ext := by
  have hpubne : pubPlaceholder ≠ [] := by simp [pubPlaceholder]
  have hextne : extPlaceholder ≠ [] := by simp [extPlaceholder]
  constructor
  · have hpub : pre ++ extPlaceholder ++ post ≠ [] := by
      simp [extPlaceholder]
    unfold renderFile
    simp only [if_pos hpub, if_pos h,
      replaceAll_self pubPlaceholder _ hpubne,
      replaceAll_eq_specSubstitute]
  · unfold renderFile
    simp only [if_pos hextne, if_pos h,
      replaceAll_self pubPlaceholder _ hpubne,
      replaceAll_self extPlaceholder _ hextne]

theorem publisher_substitution_before_extension_witness :
    ("x".data ≠ []) ∧
    (renderFile pubPlaceholder ([] ++ extPlaceholder ++ []) "x".data
       = specSubstitute extPlaceholder "x".data ([] ++ extPlaceholder ++ []) ∧
     renderFile pubPlaceholder extPlaceholder "x".data = "x".data) :=
  ⟨by decide, publisher_substitution_before_extension [] [] "x".data (by decide)⟩

end OvsxSetup
